import Mathlib

/-!
Verification development for the protondb-data repository.

The repository has three Python programs:
* `extract_protondb_data.py` — walks report archives / loose JSON files,
  infers a fallback timestamp from each filename, and reconciles every
  payload entry into a `games` SQLite table (insert-or-update with
  first_seen / last_seen / report_count merge semantics);
* `create_steam_db.py` — fetches the Steam app catalog, analyzes duplicate
  entries, and bulk-upserts into an `apps` table;
* `querries-db.py` — read-only queries over the `games` table.

Below, each Python function relevant to the claims is embedded as an
executable Lean definition.  SQLite tables become association lists keyed
by their primary key; Python `None` becomes `Option.none`; a caught Python
exception becomes an explicit error branch of the embedded function.
-/

namespace ProtonDB

/-! ### Data model: the `games` table (extract_protondb_data.py)

One row of the `games` table:
`app_id TEXT PRIMARY KEY, title TEXT NOT NULL, first_seen INTEGER,
 last_seen INTEGER, report_count INTEGER DEFAULT 1`. -/

structure GameRecord where
  app_id : String
  title : String
  first_seen : Option Int
  last_seen : Option Int
  report_count : Int
deriving DecidableEq, Repr

/-- The `games` table, as the list of its rows (keyed by `app_id`). -/
abbrev Store := List GameRecord

/-- `SELECT ... FROM games WHERE app_id = ?` returning the first matching row. -/
def lookupGame (st : Store) (id : String) : Option GameRecord :=
  st.find? (fun r => r.app_id == id)

/-- One parsed JSON payload entry, as read by `process_json_entry`:
`app.steam.appId` (missing key modelled as `none`), `app.title`, and the
optional top-level `timestamp` key.  For `timestamp`, the outer `Option`
records whether the key is present at all (`entry_data.get("timestamp", timestamp)`
falls back only when the key is absent), the inner one whether its value is null. -/
structure Entry where
  appId : Option String
  title : Option String
  timestamp : Option (Option Int)
deriving DecidableEq, Repr

/-- Python falsiness of the extracted string fields: `not app_id` /
`not title` is true for a missing key (`None`) and for the empty string. -/
def falsyStr : Option String → Bool
  | none => true
  | some s => s == ""

/-- Python truthiness of `entry_timestamp` in `if entry_timestamp and ...`:
false for `None` and for the integer `0`. -/
def truthyTs : Option Int → Bool
  | none => false
  | some v => v != 0

/-- `entry_timestamp = entry_data.get("timestamp", timestamp)`: the payload's
own `timestamp` value if the key is present (even if null), else the
archive/file fallback. -/
def effectiveTs (e : Entry) (fallback : Option Int) : Option Int :=
  match e.timestamp with
  | none => fallback
  | some t => t

/-- The update branch of `process_json_entry` (lines 159-177) acting on the
existing row.  `none` means the branch raised a `TypeError` before reaching
the SQL `UPDATE` (comparing an `int` against a `None` bound), so the caught
exception leaves the row unchanged.  Otherwise the returned row is what the
`UPDATE` writes: possibly-widened bounds and `report_count + 1`. -/
def updateExisting (r : GameRecord) (ts : Option Int) : Option GameRecord :=
  match ts, truthyTs ts with
  | some t, true =>
    match r.first_seen, r.last_seen with
    | some f, some l =>
      some { r with
             first_seen := some (if t < f then t else f),
             last_seen := some (if t > l then t else l),
             report_count := r.report_count + 1 }
    | _, _ => none
  | _, _ =>
    some { r with report_count := r.report_count + 1 }

/-- Outcome classification of one reconciliation, the `(is_new, is_updated)`
pair returned by `process_json_entry`: `(True, False)` is `inserted`,
`(False, True)` is `updated`, `(False, False)` is `skipped`. -/
inductive RecResult
  | inserted
  | updated
  | skipped
deriving DecidableEq, Repr

/-- `ProtonDBExtractor.process_json_entry` (lines 135-192): validate the
payload, look the id up, then update or insert.  The caught-exception path
(comparison against a null bound) returns the store unchanged with the
`(False, False)` classification. -/
def process_json_entry (st : Store) (e : Entry) (fallback : Option Int) :
    Store × RecResult :=
  if falsyStr e.appId || falsyStr e.title then (st, .skipped)
  else
    let id := e.appId.getD ""
    let ts := effectiveTs e fallback
    match lookupGame st id with
    | some r =>
      match updateExisting r ts with
      | some r' => (st.map (fun g => if g.app_id == id then r' else g), .updated)
      | none => (st, .skipped)
    | none =>
      (st ++ [⟨id, e.title.getD "", ts, ts, 1⟩], .inserted)

/-- Processing a sequence of observations (entry together with its
archive/file fallback timestamp), tracking only the store. -/
def processMany (st : Store) (obs : List (Entry × Option Int)) : Store :=
  obs.foldl (fun s p => (process_json_entry s p.1 p.2).1) st

/-! ### Timestamp inference from filenames
(`process_archive` lines 209-244 and `process_json_file` lines 327-361)

The Python code applies `re.match` with the pattern
`reports_([a-z]+)(\d*)_(\d{4})\.<ext>` (so: required prefix, no end anchor),
looks the first group up in a fixed 12-entry month table, and on success
builds `datetime(year, month, 15)` and converts it to a Unix timestamp.
We keep the `(year, month, day)` triple that the code hands to `datetime`
rather than the epoch integer (the numeric conversion is the standard
library's and carries no design content); `nowTs` stands for
`int(time.time())`.  Filenames are modelled as their character lists.
The regex's three character classes `[a-z]`, `\d` and the literals are
pairwise disjoint, so greedy matching never backtracks productively and the
recognizer below is an exact deterministic rendering of the pattern. -/

/-- `[a-z]` of the regex (code points 97..122). -/
def isLowerAZ (c : Char) : Bool := 97 ≤ c.toNat && c.toNat ≤ 122

/-- `\d` of the regex (code points 48..57). -/
def isDigitCh (c : Char) : Bool := 48 ≤ c.toNat && c.toNat ≤ 57

/-- Match a literal character sequence as a prefix, returning the rest. -/
def matchLit : List Char → List Char → Option (List Char)
  | [], s => some s
  | _ :: _, [] => none
  | p :: ps, c :: cs => if c = p then matchLit ps cs else none

/-- Numeric value of the 4-digit year group, `int(match.group(3))`. -/
def yearVal (c1 c2 c3 c4 : Char) : Nat :=
  (((c1.toNat - 48) * 10 + (c2.toNat - 48)) * 10 + (c3.toNat - 48)) * 10
    + (c4.toNat - 48)

/-- `re.match(r'reports_([a-z]+)(\d*)_(\d{4})\.<ext>', filename)`, returning
the month-name group and the year value on success.  `ext` is the literal
tail of the pattern (`".tar.gz"` in `process_archive`, `".json"` in
`process_json_file`); as `re.match` has no end anchor, characters may
follow it. -/
def parseReports (ext : List Char) (s : List Char) : Option (List Char × Nat) :=
  match matchLit "reports_".toList s with
  | none => none
  | some s1 =>
    let m := s1.takeWhile isLowerAZ
    match m with
    | [] => none
    | _ :: _ =>
      match (s1.dropWhile isLowerAZ).dropWhile isDigitCh with
      | '_' :: c1 :: c2 :: c3 :: c4 :: s5 =>
        if isDigitCh c1 && isDigitCh c2 && isDigitCh c3 && isDigitCh c4 then
          match matchLit ext s5 with
          | some _ => some (m, yearVal c1 c2 c3 c4)
          | none => none
        else none
      | _ => none

/-- The fixed 12-entry month table of the Python code. -/
def month_map : List (List Char × Nat) :=
  [("jan".toList, 1), ("feb".toList, 2), ("mar".toList, 3), ("apr".toList, 4),
   ("may".toList, 5), ("jun".toList, 6), ("jul".toList, 7), ("aug".toList, 8),
   ("sep".toList, 9), ("oct".toList, 10), ("nov".toList, 11), ("dec".toList, 12)]

/-- `month_name in month_map` / `month_map[month_name]`. -/
def lookupMonth (m : List Char) : Option Nat :=
  (month_map.find? (fun p => p.1 == m)).map (fun p => p.2)

/-- Is `pat` a prefix of `s`? -/
def hasPre : List Char → List Char → Bool
  | [], _ => true
  | _ :: _, [] => false
  | p :: ps, c :: cs => c = p && hasPre ps cs

/-- Python's `pat in s` substring test. -/
def containsSub (pat : List Char) : List Char → Bool
  | [] => hasPre pat []
  | c :: cs => hasPre pat (c :: cs) || containsSub pat cs

/-- Result of the timestamp inference: the date handed to
`datetime(year, month, day)` and converted to an epoch value, the current
wall-clock time `int(time.time())`, or no timestamp at all
(`archive_timestamp` / `file_timestamp` left as `None`). -/
inductive InferResult
  | dateTs (year month day : Nat)
  | nowTs
  | unknown
deriving DecidableEq, Repr

/-- The filename-to-timestamp inference shared by `process_archive`
(ext = ".tar.gz") and `process_json_file` (ext = ".json"): on a regex match,
resolve the month group through the table (unknown month names only log a
warning and yield no timestamp); with no match, fall back to the current
time for filenames containing `piiremoved`, else no timestamp.
`datetime.datetime(year, month_num, 15)` validates its year against
`datetime.MINYEAR = 1` and `datetime.MAXYEAR = 9999` and raises
`ValueError` outside that range; the surrounding `except` (lines 243-244,
resp. 360-361) catches it and the timestamp stays `None`.  A 4-digit year
group can only violate the lower bound (year `0000`), but both bounds are
kept to mirror datetime's own rule. -/
def inferTimestamp (ext : List Char) (filename : List Char) : InferResult :=
  match parseReports ext filename with
  | some (m, y) =>
    match lookupMonth m with
    | some mn =>
      if 1 ≤ y && y ≤ 9999 then .dateTs y mn 15 else .unknown
    | none => .unknown
  | none =>
    if containsSub "piiremoved".toList filename then .nowTs else .unknown

/-- Written from the claim's own words, for comparison with the code: a
filename "matches the pattern" when the regex shape matches
and the month group is one of the twelve abbreviations `jan..dec`; in that
case the claimed result is the `(month, year)` pair. -/
def claimPatternMatch (ext : List Char) (s : List Char) : Option (Nat × Nat) :=
  match parseReports ext s with
  | some (m, y) =>
    match lookupMonth m with
    | some mn => some (mn, y)
    | none => none
  | none => none

/-! ### Archive / file walker failure policy
(`process_archive` lines 257-281, `process_json_file` line 424-426,
`ProtonDBExtractor.run`)

A parsed JSON document is either a single payload object or a list of them;
a file whose `json.load` raises `JSONDecodeError` is modelled as
`malformed`.  An archive that fails to open or extract is `bad`.  In both
cases the Python code catches the exception inside the loop (or returns
`(0, 0, 0)` from the per-archive call), logs, and moves on. -/

/-- A parsed JSON document: top-level array or single object. -/
inductive JsonData
  | single (e : Entry)
  | listOf (es : List Entry)
deriving Repr

/-- The payload entries a document contributes, in iteration order. -/
def entriesOf : JsonData → List Entry
  | .single e => [e]
  | .listOf es => es

/-- A JSON file inside an archive or lying loose: parseable or malformed. -/
inductive JsonFile
  | malformed
  | good (d : JsonData)
deriving Repr

/-- Processing one JSON file against the store with a fallback timestamp;
returns the new store and the number of entries processed
(`entries_processed` is incremented once per payload entry, and a file whose
parse fails contributes none because `json.load` raises before the loop). -/
def processFile (st : Store) (f : JsonFile) (ts : Option Int) : Store × Nat :=
  match f with
  | .malformed => (st, 0)
  | .good d =>
    ((entriesOf d).foldl (fun s e => (process_json_entry s e ts).1) st,
     (entriesOf d).length)

/-- The per-archive loop over extracted JSON files (lines 257-281): each
file is processed under the archive's fallback timestamp, malformed files
are caught and skipped, entry counts accumulate. -/
def processFiles (st : Store) (fs : List JsonFile) (ts : Option Int) :
    Store × Nat :=
  fs.foldl (fun acc f =>
    let r := processFile acc.1 f ts
    (r.1, acc.2 + r.2)) (st, 0)

/-- One archive source: failing to open/extract, or opened with its
inferred fallback timestamp and contained JSON files. -/
inductive ArchiveSrc
  | bad
  | ok (ts : Option Int) (files : List JsonFile)
deriving Repr

/-- `process_archive` at the granularity the walker sees: a failing archive
is caught by the surrounding `except` and yields `(0, 0, 0)`. -/
def processArchive (st : Store) (a : ArchiveSrc) : Store × Nat :=
  match a with
  | .bad => (st, 0)
  | .ok ts fs => processFiles st fs ts

/-- The walker's loop over archives in `run`. -/
def processArchives (st : Store) (arcs : List ArchiveSrc) : Store × Nat :=
  arcs.foldl (fun acc a =>
    let r := processArchive acc.1 a
    (r.1, acc.2 + r.2)) (st, 0)

/-! ### Catalog importer (create_steam_db.py)

The `apps` table (`appid INTEGER PRIMARY KEY, name TEXT`) is an association
list keyed by `appid`; `last_updated` carries no design content and is
omitted.  A fetched catalog entry is an `(appid, name)` pair. -/

abbrev CatalogDb := List (Int × String)

/-- `SELECT name FROM apps WHERE appid = ?`. -/
def lookupApp (db : CatalogDb) (i : Int) : Option String :=
  (db.find? (fun p => p.1 == i)).map (fun p => p.2)

/-- One `INSERT OR REPLACE INTO apps (appid, name) VALUES (?, ?)`:
replace-on-conflict by primary key. -/
def upsertOne (db : CatalogDb) (a : Int × String) : CatalogDb :=
  if db.any (fun p => p.1 == a.1) then
    db.map (fun p => if p.1 == a.1 then a else p)
  else db ++ [a]

/-- `populate_database` (lines 84-100): the `executemany` batch upsert,
applied in fetched-list order. -/
def populate_database (db : CatalogDb) (apps : List (Int × String)) : CatalogDb :=
  apps.foldl upsertOne db

/-- `reset_database` (lines 102-117): drop and recreate the table. -/
def reset_database (_db : CatalogDb) : CatalogDb := []

/-- Occurrence counter in Python-`Counter` style: an association list from
key to count, built by one pass over the iterable. -/
def bumpCount {α : Type} [DecidableEq α] :
    List (α × Nat) → α → List (α × Nat)
  | [], k => [(k, 1)]
  | (k', n) :: t, k =>
    if k' = k then (k', n + 1) :: t else (k', n) :: bumpCount t k

/-- `Counter(iterable)`. -/
def counter {α : Type} [DecidableEq α] (ks : List α) : List (α × Nat) :=
  ks.foldl bumpCount []

/-- Dictionary lookup in an association list. -/
def lookupA {α β : Type} [DecidableEq α] (l : List (α × β)) (k : α) : Option β :=
  (l.find? (fun p => decide (p.1 = k))).map (fun p => p.2)

/-- `duplicate_ids` of `analyze_duplicates` (lines 43-46): ids with
occurrence count above 1. -/
def duplicate_ids (apps : List (Int × String)) : List (Int × Nat) :=
  (counter (apps.map (fun a => a.1))).filter (fun p => 1 < p.2)

/-- `exact_duplicates` of `analyze_duplicates` (lines 49-53): `(id, name)`
pairs with occurrence count above 1. -/
def exact_duplicates (apps : List (Int × String)) :
    List ((Int × String) × Nat) :=
  (counter apps).filter (fun p => 1 < p.2)

/-- `set.add`: Python sets are modelled as lists of distinct elements in
first-insertion order. -/
def addToSet (l : List String) (n : String) : List String :=
  if n ∈ l then l else l ++ [n]

/-- One step of building `app_id_to_names` (a `defaultdict(set)`). -/
def bumpNames : List (Int × List String) → Int → String → List (Int × List String)
  | [], i, n => [(i, addToSet [] n)]
  | (i', ns) :: t, i, n =>
    if i' = i then (i', addToSet ns n) :: t else (i', ns) :: bumpNames t i n

/-- `different_names` of `analyze_duplicates` (lines 56-61): ids whose name
set has more than one element. -/
def different_names (apps : List (Int × String)) : List (Int × List String) :=
  (apps.foldl (fun acc a => bumpNames acc a.1 a.2) []).filter
    (fun p => 1 < p.2.length)

/-- Specification-side view: the names paired with id `i` in the fetched
list, in list order and with repetitions. -/
def namesRaw (apps : List (Int × String)) (i : Int) : List String :=
  (apps.filter (fun a => a.1 == i)).map (fun a => a.2)

/-- Specification-side view: first-occurrence deduplication, the list
rendering of the set of elements of `l`. -/
def dedupF (l : List String) : List String := l.foldl addToSet []

/-- The storage effect of `main` in create_steam_db.py: optionally reset
(only offered when the table is nonempty, only done on a `y` answer),
then fetch; `fetch_steam_apps` returns the empty list when the request
fails, and `main` then prints and returns before `populate_database`. -/
def catalog_main_run (db0 : CatalogDb) (resetAnswerYes : Bool)
    (fetched : List (Int × String)) : CatalogDb :=
  let db1 := if 0 < db0.length && resetAnswerYes then reset_database db0 else db0
  if fetched.isEmpty then db1
  else populate_database db1 fetched

/-! ### Query facade (querries-db.py)

`get_database_stats` (lines 77-99) runs `COUNT(*)`, `MAX(report_count)`,
`round(AVG(report_count), 2)` and `MIN/MAX(first_seen)` over the `games`
table.  SQL aggregates other than `COUNT` return NULL on an empty table
and ignore NULL inputs; `round(None, 2)` raises a `TypeError`, modelled as
the `none` result of the whole call.  `AVG` and `round` are idealized over
the exact rationals (Python computes them on IEEE floats); `round` uses
round-half-to-even as Python does. -/

/-- `MAX(report_count)` (NULL on empty input). -/
def maxReports (rows : List GameRecord) : Option Int :=
  rows.foldl (fun a r =>
    match a with
    | none => some r.report_count
    | some m => some (max m r.report_count)) none

/-- `MIN(first_seen)`: NULL inputs ignored, NULL when nothing remains. -/
def minFirstSeen (rows : List GameRecord) : Option Int :=
  rows.foldl (fun a r =>
    match a, r.first_seen with
    | none, v => v
    | some m, none => some m
    | some m, some v => some (min m v)) none

/-- `MAX(first_seen)`: NULL inputs ignored, NULL when nothing remains. -/
def maxFirstSeen (rows : List GameRecord) : Option Int :=
  rows.foldl (fun a r =>
    match a, r.first_seen with
    | none, v => v
    | some m, none => some m
    | some m, some v => some (max m v)) none

/-- `AVG(report_count)`: NULL on an empty table, else the mean. -/
def avgReports (rows : List GameRecord) : Option ℚ :=
  match rows with
  | [] => none
  | _ :: _ =>
    some ((rows.foldl (fun a r => a + r.report_count) 0 : ℤ) / (rows.length : ℚ))

/-- Python's banker's rounding to the nearest integer. -/
def roundHalfEven (q : ℚ) : ℤ :=
  if q - ⌊q⌋ < 1 / 2 then ⌊q⌋
  else if 1 / 2 < q - ⌊q⌋ then ⌊q⌋ + 1
  else if ⌊q⌋ % 2 = 0 then ⌊q⌋ else ⌊q⌋ + 1

/-- `round(x, 2)`. -/
def round2 (q : ℚ) : ℚ := (roundHalfEven (q * 100) : ℚ) / 100

/-- The stats dictionary assembled by `get_database_stats`. -/
structure DbStats where
  total_games : Nat
  max_reports : Option Int
  avg_reports : ℚ
  oldest_game_timestamp : Option Int
  newest_game_timestamp : Option Int
deriving DecidableEq, Repr

/-- `ProtonDBQuerier.get_database_stats`: the queries run in order; on an
empty table `AVG` yields NULL and `round(None, 2)` raises, so no stats
dictionary is produced. -/
def get_database_stats (rows : List GameRecord) : Option DbStats :=
  match avgReports rows with
  | none => none
  | some a =>
    some ⟨rows.length, maxReports rows, round2 a,
          minFirstSeen rows, maxFirstSeen rows⟩

/-! ### Invariants of the `games` table (spec §3) -/

/-- Per-row invariant: `first_seen <= last_seen` whenever both bounds are
non-null, and `report_count >= 1`. -/
def RecordInv (r : GameRecord) : Prop :=
  (∀ f l, r.first_seen = some f → r.last_seen = some l → f ≤ l)
  ∧ 1 ≤ r.report_count

/-- Store-wide invariant: every row satisfies `RecordInv`. -/
def StoreInv (st : Store) : Prop := ∀ r ∈ st, RecordInv r

/-!
## Theorems
-/

/-! ### C3: insertion of a never-before-seen id -/

/-- **C3.** For every normalized tuple whose app_id is not yet in the store,
`process_json_entry` inserts a new row with `report_count = 1`,
`first_seen = last_seen = timestamp` (both null when the timestamp is
null), the tuple's title, and classifies the operation as inserted. -/
theorem C3_insert_new_row (st : Store) (e : Entry) (ft : Option Int)
    (ha : falsyStr e.appId = false) (ht : falsyStr e.title = false)
    (habs : lookupGame st (e.appId.getD "") = none) :
    process_json_entry st e ft
      = (st ++ [⟨e.appId.getD "", e.title.getD "", effectiveTs e ft,
                 effectiveTs e ft, 1⟩], RecResult.inserted) := by
  simp [process_json_entry, ha, ht, habs]

/-- Witness for C3 at a concrete input. -/
theorem C3_insert_new_row_witness :
    process_json_entry [] ⟨some "10", some "Foo", none⟩ (some 5)
      = ([⟨"10", "Foo", some 5, some 5, 1⟩], RecResult.inserted) :=
  C3_insert_new_row [] ⟨some "10", some "Foo", none⟩ (some 5)
    (by decide) (by decide) (by decide)

/-! ### C1: update semantics for an already-present id -/

/-- **C1, counterexample.** The claim says a present timestamp always
replaces a null bound and that `report_count` is incremented by exactly 1
unconditionally.  In the code, a present timestamp compared against a null
bound raises a `TypeError` (`int < None`), the caught exception leaves the
row fully unchanged, and `report_count` is not incremented.  Moreover a
timestamp equal to `0` is falsy in `if entry_timestamp`, so two present
values do not take the arithmetic min/max when the new one is `0`. -/
theorem C1_counterexample :
    (process_json_entry [⟨"1", "A", none, none, 1⟩]
        ⟨some "1", some "A", some (some 5)⟩ none
      = ([⟨"1", "A", none, none, 1⟩], RecResult.skipped))
    ∧ (process_json_entry [⟨"1", "A", none, none, 1⟩]
        ⟨some "1", some "A", some (some 5)⟩ none).1
        ≠ [⟨"1", "A", some 5, some 5, 2⟩]
    ∧ (process_json_entry [⟨"1", "A", some 5, some 5, 1⟩]
        ⟨some "1", some "A", some (some 0)⟩ none).1
      = [⟨"1", "A", some 5, some 5, 2⟩]
    ∧ (process_json_entry [⟨"1", "A", some 5, some 5, 1⟩]
        ⟨some "1", some "A", some (some 0)⟩ none).1
        ≠ [⟨"1", "A", some 0, some 5, 2⟩] := by
  decide

/-- **C1, amended.** For an observation on an already-present app_id:
if the effective timestamp is null or `0`, the bounds are unchanged and
`report_count` is incremented by 1; if it is a nonzero integer and both
existing bounds are non-null, `first_seen`/`last_seen` become the
arithmetic min/max and `report_count` is incremented by 1; if it is a
nonzero integer and either existing bound is null, the comparison raises,
the caught exception leaves the row entirely unchanged, and `report_count`
is not incremented (the operation is classified as skipped). -/
theorem C1_update_semantics (st : Store) (e : Entry) (ft : Option Int)
    (r : GameRecord) (ts : Option Int)
    (ha : falsyStr e.appId = false) (ht : falsyStr e.title = false)
    (hts : effectiveTs e ft = ts)
    (hr : lookupGame st (e.appId.getD "") = some r) :
    (truthyTs ts = false →
      process_json_entry st e ft
        = (st.map (fun g => if g.app_id == e.appId.getD ""
            then { r with report_count := r.report_count + 1 } else g),
           RecResult.updated))
    ∧ (∀ t f l, ts = some t → t ≠ 0 → r.first_seen = some f →
        r.last_seen = some l →
        process_json_entry st e ft
          = (st.map (fun g => if g.app_id == e.appId.getD ""
              then { r with first_seen := some (min f t),
                            last_seen := some (max l t),
                            report_count := r.report_count + 1 } else g),
             RecResult.updated))
    ∧ (∀ t, ts = some t → t ≠ 0 →
        (r.first_seen = none ∨ r.last_seen = none) →
        process_json_entry st e ft = (st, RecResult.skipped)) := by
  refine ⟨?_, ?_, ?_⟩
  · intro htr
    cases ts with
    | none => simp [process_json_entry, ha, ht, hr, hts, updateExisting]
    | some t =>
      simp [process_json_entry, ha, ht, hr, hts, updateExisting, htr]
  · intro t f l hteq ht0 hf hl
    subst hteq
    have htr : truthyTs (some t) = true := by
      simp [truthyTs]; exact ht0
    have hmin : (if t < f then t else f) = min f t := by
      split <;> omega
    have hmax : (if t > l then t else l) = max l t := by
      split <;> omega
    simp [process_json_entry, ha, ht, hr, hts, updateExisting, htr, hf, hl,
          hmin, hmax]
  · intro t hteq ht0 hnull
    subst hteq
    have htr : truthyTs (some t) = true := by
      simp [truthyTs]; exact ht0
    rcases hnull with hf | hl
    · simp [process_json_entry, ha, ht, hr, hts, updateExisting, htr, hf]
    · cases hfv : r.first_seen <;>
        simp [process_json_entry, ha, ht, hr, hts, updateExisting, htr, hfv, hl]

/-- Witness for C1 (amended) at a concrete input: timestamp 5 against
bounds `[3, 7]` leaves them and bumps the count. -/
theorem C1_update_semantics_witness :
    process_json_entry [⟨"1", "A", some 3, some 7, 2⟩]
        ⟨some "1", some "B", some (some 5)⟩ none
      = ([⟨"1", "A", some 3, some 7, 3⟩], RecResult.updated) := by
  have h := (C1_update_semantics [⟨"1", "A", some 3, some 7, 2⟩]
      ⟨some "1", some "B", some (some 5)⟩ none
      ⟨"1", "A", some 3, some 7, 2⟩ (some 5)
      (by decide) (by decide) (by decide) (by decide)).2.1
      5 3 7 rfl (by decide) rfl rfl
  exact h.trans (by decide)

/-! ### C6: catalog importer behaviour when the fetch fails -/

/-- **C6, counterexample.** The claim says a failed fetch means no
catalog-table write (insert, replace, or delete) occurs in that run.  But
the user-confirmed reset runs before the fetch: in a run where the table
was nonempty, the operator confirmed the reset, and the fetch then failed,
the pre-existing rows are deleted. -/
theorem C6_counterexample :
    catalog_main_run [(1, "A")] true [] = []
    ∧ catalog_main_run [(1, "A")] true [] ≠ [(1, "A")]
    ∧ lookupApp (catalog_main_run [(1, "A")] true []) 1 = none := by
  decide

/-- **C6, amended.** If the remote catalog fetch fails (modelled as the
empty fetched list that `fetch_steam_apps` returns on a request error),
the importer performs no upsert: the table is left exactly as it stood
after the pre-fetch, user-confirmed optional reset.  In particular, when
no reset was confirmed, storage is untouched. -/
theorem C6_failed_fetch_no_upsert :
    (∀ db0 : CatalogDb, catalog_main_run db0 false [] = db0)
    ∧ (∀ (db0 : CatalogDb) (ans : Bool),
        catalog_main_run db0 ans []
          = if 0 < db0.length && ans then reset_database db0 else db0) := by
  constructor
  · intro db0
    simp [catalog_main_run]
  · intro db0 ans
    simp [catalog_main_run]

/-! ### C2 counterexample: pattern match versus `piiremoved` fallback -/

/-- **C2, counterexample.** `reports_piiremoved_2019.tar.gz` contains the
substring `piiremoved` and does not match the claim's pattern (its month
group is not one of `jan..dec`), so the claim demands the current
wall-clock time.  The code's regex, however, does match it (`[a-z]+`
accepts `piiremoved`), the month lookup fails, and the inference returns
no timestamp at all. -/
theorem C2_counterexample :
    claimPatternMatch ".tar.gz".toList "reports_piiremoved_2019.tar.gz".toList
        = none
    ∧ containsSub "piiremoved".toList
        "reports_piiremoved_2019.tar.gz".toList = true
    ∧ inferTimestamp ".tar.gz".toList
        "reports_piiremoved_2019.tar.gz".toList = InferResult.unknown
    ∧ InferResult.unknown ≠ InferResult.nowTs := by
  decide

/-! ### C2 amended: full characterization of the timestamp inference -/

theorem matchLit_self_append (p s : List Char) : matchLit p (p ++ s) = some s := by
  induction p with
  | nil => simp [matchLit]
  | cons c cs ih => simp [matchLit, ih]

theorem takeWhile_all_append (p : Char → Bool) (xs ys : List Char)
    (hx : ∀ x ∈ xs, p x = true)
    (hy : ∀ y, ys.head? = some y → p y = false) :
    (xs ++ ys).takeWhile p = xs ∧ (xs ++ ys).dropWhile p = ys := by
  induction xs with
  | nil =>
    cases ys with
    | nil => simp
    | cons y t =>
      have hpy := hy y rfl
      simp [List.takeWhile_cons, List.dropWhile_cons, hpy]
  | cons x xs ih =>
    have hpx := hx x (by simp)
    have ih2 := ih (fun a ha => hx a (by simp [ha]))
    simp [List.takeWhile_cons, List.dropWhile_cons, hpx, ih2.1, ih2.2]

theorem digit_not_lower {c : Char} (h : isDigitCh c = true) :
    isLowerAZ c = false := by
  simp [isDigitCh] at h
  simp [isLowerAZ]
  omega

/-- The regex accepts every filename of the shape
`reports_<letters><digits>_<4 digits><ext><anything>`, with the letter run
as the month group and the 4 digits as the year group. -/
theorem parseReports_build (ext m d r : List Char) (c1 c2 c3 c4 : Char)
    (hm : m ≠ []) (hml : ∀ c ∈ m, isLowerAZ c = true)
    (hdl : ∀ c ∈ d, isDigitCh c = true)
    (h1 : isDigitCh c1 = true) (h2 : isDigitCh c2 = true)
    (h3 : isDigitCh c3 = true) (h4 : isDigitCh c4 = true) :
    parseReports ext
        ("reports_".toList
          ++ (m ++ (d ++ ('_' :: c1 :: c2 :: c3 :: c4 :: (ext ++ r)))))
      = some (m, yearVal c1 c2 c3 c4) := by
  have hhead : ∀ y,
      (d ++ '_' :: c1 :: c2 :: c3 :: c4 :: (ext ++ r)).head? = some y →
      isLowerAZ y = false := by
    intro y hy
    cases d with
    | nil =>
      simp at hy
      subst hy
      decide
    | cons a t =>
      simp at hy
      subst hy
      exact digit_not_lower (hdl a (by simp))
  have tw := takeWhile_all_append isLowerAZ m
    (d ++ '_' :: c1 :: c2 :: c3 :: c4 :: (ext ++ r)) hml hhead
  have tw2 := takeWhile_all_append isDigitCh d
    ('_' :: c1 :: c2 :: c3 :: c4 :: (ext ++ r)) hdl
    (by intro y hy; simp at hy; subst hy; decide)
  cases m with
  | nil => exact absurd rfl hm
  | cons a t =>
    simp only [parseReports, matchLit_self_append,
      tw.1, tw.2, tw2.2, h1, h2, h3, h4, Bool.and_self, if_true]

/-- The year group of 4 digit characters denotes a value of at most 9999,
and the digit code points bound it from below by the all-zeros reading. -/
theorem yearVal_le {c1 c2 c3 c4 : Char}
    (h1 : isDigitCh c1 = true) (h2 : isDigitCh c2 = true)
    (h3 : isDigitCh c3 = true) (h4 : isDigitCh c4 = true) :
    yearVal c1 c2 c3 c4 ≤ 9999 := by
  have e1 : 48 ≤ c1.toNat ∧ c1.toNat ≤ 57 := by simpa [isDigitCh] using h1
  have e2 : 48 ≤ c2.toNat ∧ c2.toNat ≤ 57 := by simpa [isDigitCh] using h2
  have e3 : 48 ≤ c3.toNat ∧ c3.toNat ≤ 57 := by simpa [isDigitCh] using h3
  have e4 : 48 ≤ c4.toNat ∧ c4.toNat ≤ 57 := by simpa [isDigitCh] using h4
  simp only [yearVal]
  omega

/-- **C2, amended.** The month group of the regex is any nonempty run of
lowercase letters, not only `jan..dec`.  For every filename of the regex's
shape whose year group is not `0000`, the inference yields the 15th of the
looked-up month and year when the month group is in the table, and no
timestamp otherwise — even when the filename contains `piiremoved`
(e.g. `reports_piiremoved_2019.tar.gz`).  When the year group is `0000`,
`datetime(0, month, 15)` raises, the exception is caught, and no timestamp
results even for a month in the table.  Only filenames rejected by the
regex fall back to the current time when they contain `piiremoved`, and to
no timestamp otherwise. -/
theorem C2_timestamp_inference :
    (∀ (ext m d r : List Char) (c1 c2 c3 c4 : Char),
      m ≠ [] → (∀ c ∈ m, isLowerAZ c = true) → (∀ c ∈ d, isDigitCh c = true) →
      isDigitCh c1 = true → isDigitCh c2 = true → isDigitCh c3 = true →
      isDigitCh c4 = true → yearVal c1 c2 c3 c4 ≠ 0 →
      inferTimestamp ext
          ("reports_".toList
            ++ (m ++ (d ++ ('_' :: c1 :: c2 :: c3 :: c4 :: (ext ++ r)))))
        = match lookupMonth m with
          | some mn => InferResult.dateTs (yearVal c1 c2 c3 c4) mn 15
          | none => InferResult.unknown)
    ∧ (∀ (ext m d r : List Char) (c1 c2 c3 c4 : Char),
      m ≠ [] → (∀ c ∈ m, isLowerAZ c = true) → (∀ c ∈ d, isDigitCh c = true) →
      isDigitCh c1 = true → isDigitCh c2 = true → isDigitCh c3 = true →
      isDigitCh c4 = true → yearVal c1 c2 c3 c4 = 0 →
      inferTimestamp ext
          ("reports_".toList
            ++ (m ++ (d ++ ('_' :: c1 :: c2 :: c3 :: c4 :: (ext ++ r)))))
        = InferResult.unknown)
    ∧ (∀ ext s, parseReports ext s = none →
        inferTimestamp ext s
          = if containsSub "piiremoved".toList s then InferResult.nowTs
            else InferResult.unknown) := by
  refine ⟨?_, ?_, ?_⟩
  · intro ext m d r c1 c2 c3 c4 hm hml hdl h1 h2 h3 h4 hy0
    have hp := parseReports_build ext m d r c1 c2 c3 c4 hm hml hdl h1 h2 h3 h4
    have hcond : (1 ≤ yearVal c1 c2 c3 c4 && yearVal c1 c2 c3 c4 ≤ 9999)
        = true := by
      have hle := yearVal_le h1 h2 h3 h4
      simp only [Bool.and_eq_true, decide_eq_true_eq]
      omega
    simp only [inferTimestamp, hp]
    cases hlm : lookupMonth m with
    | none => rfl
    | some mn => simp [hcond]
  · intro ext m d r c1 c2 c3 c4 hm hml hdl h1 h2 h3 h4 hy0
    have hp := parseReports_build ext m d r c1 c2 c3 c4 hm hml hdl h1 h2 h3 h4
    simp only [inferTimestamp, hp]
    cases hlm : lookupMonth m with
    | none => rfl
    | some mn => simp [hy0]
  · intro ext s h
    simp [inferTimestamp, h]

/-- Witness for C2 (amended) at a concrete input:
`reports_feb_2020.tar.gz` yields the 15th of February 2020. -/
theorem C2_timestamp_inference_witness :
    inferTimestamp ".tar.gz".toList
        ("reports_".toList
          ++ (['f', 'e', 'b'] ++ ([] ++ ('_' :: '2' :: '0' :: '2' :: '0'
              :: (".tar.gz".toList ++ [])))))
      = InferResult.dateTs 2020 2 15 := by
  have h := C2_timestamp_inference.1 ".tar.gz".toList ['f', 'e', 'b'] [] []
    '2' '0' '2' '0' (by decide) (by decide) (by decide) (by decide)
    (by decide) (by decide) (by decide) (by decide)
  exact h.trans (by decide)

/-! ### C4 / C5: title stability and store invariants -/

theorem lookupGame_append_left {st : Store} {id : String} {r : GameRecord}
    (h : lookupGame st id = some r) (xs : Store) :
    lookupGame (st ++ xs) id = some r := by
  simp [lookupGame] at h ⊢
  simp [List.find?_append, h]

theorem lookupGame_append_absent {st : Store} {id : String}
    (h : lookupGame st id = none) (g : GameRecord) (hg : g.app_id = id) :
    lookupGame (st ++ [g]) id = some g := by
  unfold lookupGame at h ⊢
  rw [List.find?_append, h]
  simp [List.find?_cons, hg]

theorem lookupGame_map (f : GameRecord → GameRecord)
    (hf : ∀ g, (f g).app_id = g.app_id) (st : Store) (id : String) :
    lookupGame (st.map f) id = (lookupGame st id).map f := by
  have hp : (fun r : GameRecord => r.app_id == id) ∘ f
      = fun r : GameRecord => r.app_id == id := by
    funext g
    simp [hf g]
  simp [lookupGame, List.find?_map, hp]

theorem updateExisting_fields {r : GameRecord} {ts : Option Int}
    {r' : GameRecord} (h : updateExisting r ts = some r') :
    r'.app_id = r.app_id ∧ r'.title = r.title := by
  unfold updateExisting at h
  split at h
  · split at h
    · cases h
      exact ⟨rfl, rfl⟩
    · simp at h
  · cases h
    exact ⟨rfl, rfl⟩

theorem updateExisting_inv {r r' : GameRecord} {ts : Option Int}
    (hinv : RecordInv r) (h : updateExisting r ts = some r') :
    RecordInv r' := by
  obtain ⟨hb, hc⟩ := hinv
  unfold updateExisting at h
  split at h
  · rename_i t htr
    split at h
    · rename_i f l hf hl
      cases h
      constructor
      · intro f' l' hf' hl'
        have h1 : (if t < f then t else f) = f' := Option.some.inj hf'
        have h2 : (if t > l then t else l) = l' := Option.some.inj hl'
        have hfl := hb f l hf hl
        subst h1
        subst h2
        split <;> split <;> omega
      · simpa using by omega
    · simp at h
  · cases h
    exact ⟨fun f l hf hl => hb f l hf hl, by simpa using by omega⟩

/-- One reconciliation step never changes the title (or presence) of a row
already in the store. -/
theorem process_title_stable (st : Store) (e : Entry) (ft : Option Int)
    (id : String) (r : GameRecord) (h : lookupGame st id = some r) :
    ∃ r', lookupGame (process_json_entry st e ft).1 id = some r'
        ∧ r'.title = r.title := by
  by_cases hval : (falsyStr e.appId || falsyStr e.title) = true
  · simp [process_json_entry, hval]
    exact ⟨r, h, rfl⟩
  · rw [Bool.not_eq_true] at hval
    cases hlk : lookupGame st (e.appId.getD "") with
    | none =>
      simp only [process_json_entry, hval, Bool.false_eq_true, if_false, hlk]
      exact ⟨r, lookupGame_append_left h _, rfl⟩
    | some r0 =>
      cases hup : updateExisting r0 (effectiveTs e ft) with
      | none =>
        simp only [process_json_entry, hval, Bool.false_eq_true, if_false,
          hlk, hup]
        exact ⟨r, h, rfl⟩
      | some r0' =>
        simp only [process_json_entry, hval, Bool.false_eq_true, if_false,
          hlk, hup]
        have hr0 : r0.app_id = e.appId.getD "" := by
          have := List.find?_some hlk
          simpa using this
        obtain ⟨hids, htit⟩ := updateExisting_fields hup
        have hf : ∀ g : GameRecord,
            ((fun g => if g.app_id == e.appId.getD "" then r0' else g) g).app_id
              = g.app_id := by
          intro g
          by_cases hg : (g.app_id == e.appId.getD "") = true
          · simp only [hg, if_true]
            rw [hids, hr0]
            exact (eq_of_beq hg).symm
          · simp [hg]
        rw [lookupGame_map _ hf st id, h]
        by_cases hrid : (r.app_id == e.appId.getD "") = true
        · have hid : r.app_id = id := by
            have := List.find?_some h
            simpa using this
          have hrr0 : r = r0 := by
            have hii : id = e.appId.getD "" := by
              rw [← hid]
              exact eq_of_beq hrid
            rw [hii] at h
            rw [h] at hlk
            exact Option.some.inj hlk
          refine ⟨r0', ?_, ?_⟩
          · show some (if (r.app_id == e.appId.getD "") = true then r0' else r)
              = some r0'
            rw [if_pos hrid]
          · rw [htit, hrr0]
        · refine ⟨r, ?_, rfl⟩
          show some (if (r.app_id == e.appId.getD "") = true then r0' else r)
            = some r
          rw [if_neg hrid]

/-- **C4.** The stored title is never rewritten after the first insert:
a row present in the store keeps its title across any sequence of later
reconciled observations, and a row created by a first observation keeps
that observation's title across any sequence of later observations
whatever titles they carry. -/
theorem C4_title_never_rewritten :
    (∀ (st : Store) (obs : List (Entry × Option Int)) (id : String)
        (r : GameRecord), lookupGame st id = some r →
      ∃ r', lookupGame (processMany st obs) id = some r'
          ∧ r'.title = r.title)
    ∧ (∀ (st : Store) (e : Entry) (ft : Option Int)
        (obs : List (Entry × Option Int)),
        falsyStr e.appId = false → falsyStr e.title = false →
        lookupGame st (e.appId.getD "") = none →
        ∃ r', lookupGame (processMany (process_json_entry st e ft).1 obs)
                (e.appId.getD "") = some r'
            ∧ r'.title = e.title.getD "") := by
  have main : ∀ (obs : List (Entry × Option Int)) (st : Store) (id : String)
      (r : GameRecord), lookupGame st id = some r →
      ∃ r', lookupGame (processMany st obs) id = some r'
          ∧ r'.title = r.title := by
    intro obs
    induction obs with
    | nil =>
      intro st id r h
      exact ⟨r, h, rfl⟩
    | cons o t ih =>
      intro st id r h
      obtain ⟨r1, h1, ht1⟩ := process_title_stable st o.1 o.2 id r h
      have hstep : processMany st (o :: t)
          = processMany ((process_json_entry st o.1 o.2).1) t := rfl
      rw [hstep]
      obtain ⟨r2, h2, ht2⟩ := ih _ id r1 h1
      exact ⟨r2, h2, ht2.trans ht1⟩
  refine ⟨fun st obs => main obs st, ?_⟩
  intro st e ft obs ha htl habs
  have hins : process_json_entry st e ft
      = (st ++ [⟨e.appId.getD "", e.title.getD "", effectiveTs e ft,
                 effectiveTs e ft, 1⟩], RecResult.inserted) := by
    simp [process_json_entry, ha, htl, habs]
  have hnew : lookupGame (process_json_entry st e ft).1 (e.appId.getD "")
      = some ⟨e.appId.getD "", e.title.getD "", effectiveTs e ft,
              effectiveTs e ft, 1⟩ := by
    rw [hins]
    exact lookupGame_append_absent habs _ rfl
  exact main obs _ _ _ hnew

/-- Witness for C4: a second observation with a different title leaves the
stored title `"A"` intact. -/
theorem C4_title_never_rewritten_witness :
    ∃ r', lookupGame
        (processMany [⟨"1", "A", some 1, some 2, 1⟩]
          [(⟨some "1", some "B", some (some 3)⟩, none)]) "1" = some r'
      ∧ r'.title = "A" :=
  C4_title_never_rewritten.1 [⟨"1", "A", some 1, some 2, 1⟩]
    [(⟨some "1", some "B", some (some 3)⟩, none)] "1"
    ⟨"1", "A", some 1, some 2, 1⟩ (by decide)

/-- **C5.** Every reconciliation operation preserves the store invariant
(`first_seen <= last_seen` whenever both non-null, `report_count >= 1`
for every row), and every store reachable from the empty store satisfies
it. -/
theorem C5_store_invariants :
    (∀ (st : Store) (e : Entry) (ft : Option Int),
      StoreInv st → StoreInv (process_json_entry st e ft).1)
    ∧ (∀ obs : List (Entry × Option Int), StoreInv (processMany [] obs)) := by
  have step : ∀ (st : Store) (e : Entry) (ft : Option Int),
      StoreInv st → StoreInv (process_json_entry st e ft).1 := by
    intro st e ft hinv
    by_cases hval : (falsyStr e.appId || falsyStr e.title) = true
    · simpa [process_json_entry, hval] using hinv
    · rw [Bool.not_eq_true] at hval
      cases hlk : lookupGame st (e.appId.getD "") with
      | none =>
        simp only [process_json_entry, hval, Bool.false_eq_true, if_false, hlk]
        intro r hr
        rcases List.mem_append.mp hr with hmem | hmem
        · exact hinv r hmem
        · simp at hmem
          subst hmem
          refine ⟨?_, by norm_num⟩
          intro f l hf hl
          simp only at hf hl
          rw [hf] at hl
          cases Option.some.inj hl
          exact le_refl f
      | some r0 =>
        cases hup : updateExisting r0 (effectiveTs e ft) with
        | none =>
          simpa only [process_json_entry, hval, Bool.false_eq_true, if_false,
            hlk, hup] using hinv
        | some r0' =>
          simp only [process_json_entry, hval, Bool.false_eq_true, if_false,
            hlk, hup]
          intro r hr
          rw [List.mem_map] at hr
          obtain ⟨g, hg, hfg⟩ := hr
          by_cases hgid : (g.app_id == e.appId.getD "") = true
          · rw [← hfg]
            simp only [hgid, if_true]
            exact updateExisting_inv (hinv r0 (List.mem_of_find?_eq_some hlk)) hup
          · rw [← hfg]
            simp only [hgid, Bool.false_eq_true, if_false]
            exact hinv g hg
  have all : ∀ (obs : List (Entry × Option Int)) (st : Store),
      StoreInv st → StoreInv (processMany st obs) := by
    intro obs
    induction obs with
    | nil =>
      intro st h
      exact h
    | cons o t ih =>
      intro st h
      have hstep : processMany st (o :: t)
          = processMany ((process_json_entry st o.1 o.2).1) t := rfl
      rw [hstep]
      exact ih _ (step st o.1 o.2 h)
  exact ⟨step, fun obs => all obs [] (by intro r hr; simp at hr)⟩

/-- Witness for C5: the invariant holds after one insertion into the empty
store. -/
theorem C5_store_invariants_witness :
    StoreInv (process_json_entry [] ⟨some "1", some "A", some (some 4)⟩ none).1 :=
  C5_store_invariants.1 [] ⟨some "1", some "A", some (some 4)⟩ none
    (by intro r hr; simp at hr)

/-! ### C8: replace-on-conflict upsert, last entry wins -/

theorem find_upsert_self (db : CatalogDb) (a : Int × String) :
    (upsertOne db a).find? (fun p => p.1 == a.1) = some a := by
  unfold upsertOne
  split
  · rename_i hany
    induction db with
    | nil => simp at hany
    | cons q t ih =>
      by_cases hq : (q.1 == a.1) = true
      · rw [List.map_cons, if_pos hq]
        exact List.find?_cons_of_pos _ (beq_self_eq_true a.1)
      · have hany' : t.any (fun p => p.1 == a.1) = true := by
          simp only [List.any_cons, hq, Bool.false_or] at hany
          exact hany
        rw [List.map_cons, if_neg hq,
          @List.find?_cons_of_neg (Int × String) (fun p => p.1 == a.1) q _ hq]
        exact ih hany'
  · rename_i hany
    have hnone : db.find? (fun p => p.1 == a.1) = none := by
      rw [List.find?_eq_none]
      intro x hx
      intro hpx
      exact hany (List.any_eq_true.mpr ⟨x, hx, hpx⟩)
    rw [List.find?_append, hnone]
    simp [List.find?_cons]

theorem find_upsert_other (db : CatalogDb) (a : Int × String) (i : Int)
    (hne : ¬ a.1 = i) :
    (upsertOne db a).find? (fun p => p.1 == i)
      = db.find? (fun p => p.1 == i) := by
  unfold upsertOne
  split
  · rename_i hany
    clear hany
    induction db with
    | nil => simp
    | cons q t ih =>
      by_cases hq : (q.1 == a.1) = true
      · have hai : (a.1 == i) = false := by
          simp [hne]
        rw [List.map_cons, if_pos hq,
          @List.find?_cons_of_neg (Int × String) (fun p => p.1 == i) a _
            (by simp [hai]),
          @List.find?_cons_of_neg (Int × String) (fun p => p.1 == i) q t
            (by simp [eq_of_beq hq, hai])]
        exact ih
      · rw [List.map_cons, if_neg hq]
        by_cases hqi : (q.1 == i) = true
        · rw [@List.find?_cons_of_pos (Int × String) (fun p => p.1 == i) q _ hqi,
            @List.find?_cons_of_pos (Int × String) (fun p => p.1 == i) q t hqi]
        · rw [@List.find?_cons_of_neg (Int × String) (fun p => p.1 == i) q _ hqi,
            @List.find?_cons_of_neg (Int × String) (fun p => p.1 == i) q t hqi]
          exact ih
  · have hai : (a.1 == i) = false := by
      simp [hne]
    rw [List.find?_append]
    simp [List.find?_cons, hai]

/-- **C8.** The batch upsert replaces on primary-key conflict in list
order: after the import, looking an id up yields the name of its last
occurrence in the fetched list, and ids not in the list keep their prior
binding. -/
theorem C8_bulk_upsert_last_wins (db : CatalogDb)
    (apps : List (Int × String)) (i : Int) :
    lookupApp (populate_database db apps) i
      = match apps.reverse.find? (fun p => p.1 == i) with
        | some p => some p.2
        | none => lookupApp db i := by
  induction apps generalizing db with
  | nil => simp [populate_database]
  | cons a t ih =>
    have hstep : populate_database db (a :: t)
        = populate_database (upsertOne db a) t := rfl
    rw [hstep, ih]
    rw [List.reverse_cons, List.find?_append]
    cases hf : t.reverse.find? (fun p => p.1 == i) with
    | some q => simp
    | none =>
      simp only [Option.none_or]
      by_cases hai : (a.1 == i) = true
      · have hia := eq_of_beq hai
        simp only [List.find?_cons, hai, cond_true]
        rw [← hia]
        unfold lookupApp
        rw [find_upsert_self]
        rfl
      · simp only [List.find?_cons, hai, cond_false, List.find?_nil]
        unfold lookupApp
        rw [find_upsert_other db a i (fun hc => hai (by rw [hc]; exact beq_self_eq_true i))]

/-! ### C9: failure policy of the walker -/

theorem processFiles_shift (ts : Option Int) (fs : List JsonFile) :
    ∀ (st : Store) (n : Nat),
      fs.foldl (fun acc f =>
        let r := processFile acc.1 f ts
        (r.1, acc.2 + r.2)) (st, n)
      = ((processFiles st fs ts).1, n + (processFiles st fs ts).2) := by
  induction fs with
  | nil =>
    intro st n
    simp [processFiles]
  | cons f t ih =>
    intro st n
    show t.foldl (fun acc f => let r := processFile acc.1 f ts; (r.1, acc.2 + r.2))
        ((processFile st f ts).1, n + (processFile st f ts).2) = _
    rw [ih]
    have hr : processFiles st (f :: t) ts
        = t.foldl (fun acc f => let r := processFile acc.1 f ts; (r.1, acc.2 + r.2))
            ((processFile st f ts).1, 0 + (processFile st f ts).2) := rfl
    rw [hr, ih]
    simp only [Prod.mk.injEq]
    exact ⟨trivial, by omega⟩

theorem processArchives_shift (arcs : List ArchiveSrc) :
    ∀ (st : Store) (n : Nat),
      arcs.foldl (fun acc a =>
        let r := processArchive acc.1 a
        (r.1, acc.2 + r.2)) (st, n)
      = ((processArchives st arcs).1, n + (processArchives st arcs).2) := by
  induction arcs with
  | nil =>
    intro st n
    simp [processArchives]
  | cons a t ih =>
    intro st n
    show t.foldl (fun acc a => let r := processArchive acc.1 a; (r.1, acc.2 + r.2))
        ((processArchive st a).1, n + (processArchive st a).2) = _
    rw [ih]
    have hr : processArchives st (a :: t)
        = t.foldl (fun acc a => let r := processArchive acc.1 a; (r.1, acc.2 + r.2))
            ((processArchive st a).1, 0 + (processArchive st a).2) := rfl
    rw [hr, ih]
    simp only [Prod.mk.injEq]
    exact ⟨trivial, by omega⟩

/-- **C9.** A malformed JSON file among the inputs contributes exactly zero
entries and leaves the store untouched at its position, while the files
before and after it are all processed; likewise an archive that fails to
open/extract contributes nothing and the walker continues with the
remaining archives. -/
theorem C9_failure_policy :
    (∀ (st : Store) (ts : Option Int) (pre post : List JsonFile),
      processFiles st (pre ++ JsonFile.malformed :: post) ts
        = ((processFiles (processFiles st pre ts).1 post ts).1,
           (processFiles st pre ts).2
             + (processFiles (processFiles st pre ts).1 post ts).2))
    ∧ (∀ (st : Store) (pre post : List ArchiveSrc),
      processArchives st (pre ++ ArchiveSrc.bad :: post)
        = ((processArchives (processArchives st pre).1 post).1,
           (processArchives st pre).2
             + (processArchives (processArchives st pre).1 post).2)) := by
  constructor
  · intro st ts pre post
    have h1 : processFiles st (pre ++ JsonFile.malformed :: post) ts
        = (JsonFile.malformed :: post).foldl
            (fun acc f => let r := processFile acc.1 f ts; (r.1, acc.2 + r.2))
            (processFiles st pre ts) := by
      unfold processFiles
      rw [List.foldl_append]
    rw [h1]
    show post.foldl
        (fun acc f => let r := processFile acc.1 f ts; (r.1, acc.2 + r.2))
        ((processFiles st pre ts).1, (processFiles st pre ts).2 + 0) = _
    rw [processFiles_shift]
    simp only [Prod.mk.injEq]
    exact ⟨trivial, by omega⟩
  · intro st pre post
    have h1 : processArchives st (pre ++ ArchiveSrc.bad :: post)
        = (ArchiveSrc.bad :: post).foldl
            (fun acc a => let r := processArchive acc.1 a; (r.1, acc.2 + r.2))
            (processArchives st pre) := by
      unfold processArchives
      rw [List.foldl_append]
    rw [h1]
    show post.foldl
        (fun acc a => let r := processArchive acc.1 a; (r.1, acc.2 + r.2))
        ((processArchives st pre).1, (processArchives st pre).2 + 0) = _
    rw [processArchives_shift]
    simp only [Prod.mk.injEq]
    exact ⟨trivial, by omega⟩

/-! ### C7: duplicate analysis of the catalog importer -/

theorem lookupA_cons_self {α β : Type} [DecidableEq α] (k : α) (v : β)
    (t : List (α × β)) : lookupA ((k, v) :: t) k = some v := by
  simp [lookupA, List.find?_cons]

theorem lookupA_cons_ne {α β : Type} [DecidableEq α] {k k' : α}
    (h : ¬ k = k') (v : β) (t : List (α × β)) :
    lookupA ((k, v) :: t) k' = lookupA t k' := by
  simp [lookupA, List.find?_cons, h]

theorem lookupA_not_mem {α β : Type} [DecidableEq α] {l : List (α × β)}
    {k : α} (h : k ∉ l.map Prod.fst) : lookupA l k = none := by
  have hf : l.find? (fun p => decide (p.1 = k)) = none := by
    rw [List.find?_eq_none]
    intro x hx hpx
    exact h (List.mem_map.mpr ⟨x, hx, of_decide_eq_true hpx⟩)
  simp [lookupA, hf]

theorem lookupA_bumpCount {α : Type} [DecidableEq α]
    (l : List (α × Nat)) (k k' : α) :
    lookupA (bumpCount l k) k'
      = if k' = k then some ((lookupA l k').getD 0 + 1)
        else lookupA l k' := by
  induction l with
  | nil =>
    by_cases h : k' = k
    · subst h
      simp [bumpCount, lookupA_cons_self, lookupA]
    · simp [bumpCount, lookupA, List.find?_cons, h, Ne.symm h]
  | cons q t ih =>
    rcases q with ⟨qk, qn⟩
    show lookupA (if qk = k then (qk, qn + 1) :: t
        else (qk, qn) :: bumpCount t k) k' = _
    by_cases hq : qk = k
    · rw [if_pos hq]
      by_cases hk : k' = qk
      · subst hk
        rw [lookupA_cons_self, if_pos hq, lookupA_cons_self]
        rfl
      · have hkk : ¬ k' = k := fun h => hk (h.trans hq.symm)
        rw [lookupA_cons_ne (fun h => hk h.symm), if_neg hkk,
          lookupA_cons_ne (fun h => hk h.symm)]
    · rw [if_neg hq]
      by_cases hk : k' = qk
      · subst hk
        rw [lookupA_cons_self, if_neg hq, lookupA_cons_self]
      · rw [lookupA_cons_ne (fun h => hk h.symm), ih,
          lookupA_cons_ne (fun h => hk h.symm)]

theorem lookupA_counter_fold {α : Type} [DecidableEq α] (ks : List α) :
    ∀ (acc : List (α × Nat)) (k : α),
      lookupA (ks.foldl bumpCount acc) k
        = match lookupA acc k with
          | some n => some (n + ks.countP (fun x => decide (x = k)))
          | none =>
            if ks.countP (fun x => decide (x = k)) = 0 then none
            else some (ks.countP (fun x => decide (x = k))) := by
  induction ks with
  | nil =>
    intro acc k
    cases h : lookupA acc k <;> simp [h]
  | cons a t ih =>
    intro acc k
    have hstep : (a :: t).foldl bumpCount acc
        = t.foldl bumpCount (bumpCount acc a) := rfl
    rw [hstep, ih, lookupA_bumpCount]
    by_cases hk : k = a
    · subst hk
      rw [if_pos rfl]
      have hc : (k :: t).countP (fun x => decide (x = k))
          = t.countP (fun x => decide (x = k)) + 1 := by
        simp [List.countP_cons]
      cases h : lookupA acc k with
      | some n =>
        simp only [h, Option.getD_some, hc, Option.some.injEq]
        omega
      | none =>
        simp only [h, Option.getD_none, hc, Nat.add_eq_zero, Nat.succ_ne_zero,
          and_false, if_false, Option.some.injEq]
        omega
    · rw [if_neg hk]
      have hc : (a :: t).countP (fun x => decide (x = k))
          = t.countP (fun x => decide (x = k)) := by
        have hak : decide (a = k) = false := by
          simp
          exact fun h => hk h.symm
        simp [List.countP_cons, hak]
      cases h : lookupA acc k <;> simp [h, hc]

theorem lookupA_counter {α : Type} [DecidableEq α] (ks : List α) (k : α) :
    lookupA (counter ks) k
      = if ks.countP (fun x => decide (x = k)) = 0 then none
        else some (ks.countP (fun x => decide (x = k))) := by
  have h := lookupA_counter_fold ks [] k
  have hnil : lookupA ([] : List (α × Nat)) k = none := rfl
  rw [counter, h, hnil]

theorem bumpCount_keys {α : Type} [DecidableEq α] (l : List (α × Nat)) (k : α) :
    (bumpCount l k).map Prod.fst
      = if k ∈ l.map Prod.fst then l.map Prod.fst
        else l.map Prod.fst ++ [k] := by
  induction l with
  | nil => simp [bumpCount]
  | cons q t ih =>
    rcases q with ⟨qk, qn⟩
    by_cases hq : qk = k
    · subst hq
      simp [bumpCount]
    · have hkq : ¬ k = qk := fun h => hq h.symm
      by_cases hk : k ∈ t.map Prod.fst
      · simp [bumpCount, hq, ih, hk, hkq]
      · simp [bumpCount, hq, ih, hk, hkq]

theorem counter_keys_nodup {α : Type} [DecidableEq α] (ks : List α) :
    ((counter ks).map Prod.fst).Nodup := by
  suffices h : ∀ acc : List (α × Nat), (acc.map Prod.fst).Nodup →
      ((ks.foldl bumpCount acc).map Prod.fst).Nodup by
    exact h [] (by simp)
  induction ks with
  | nil =>
    intro acc h
    exact h
  | cons a t ih =>
    intro acc h
    have hstep : ((a :: t).foldl bumpCount acc)
        = t.foldl bumpCount (bumpCount acc a) := rfl
    rw [hstep]
    apply ih
    rw [bumpCount_keys]
    split
    · exact h
    · rename_i ha
      rw [List.nodup_append]
      exact ⟨h, List.nodup_singleton a, by
        intro x hx hxa
        rw [List.mem_singleton] at hxa
        subst hxa
        exact ha hx⟩

theorem lookupA_filter {α β : Type} [DecidableEq α]
    (q : α × β → Bool) (l : List (α × β)) (k : α)
    (hnd : (l.map Prod.fst).Nodup) :
    lookupA (l.filter q) k
      = match lookupA l k with
        | some v => if q (k, v) = true then some v else none
        | none => none := by
  induction l with
  | nil => simp [lookupA]
  | cons p t ih =>
    rcases p with ⟨pk, pv⟩
    rw [List.map_cons] at hnd
    have hnd2 := List.nodup_cons.mp hnd
    by_cases hk : pk = k
    · subst hk
      by_cases hq : q (pk, pv) = true
      · rw [List.filter_cons_of_pos hq, lookupA_cons_self,
          lookupA_cons_self]
        simp [hq]
      · rw [List.filter_cons_of_neg hq, lookupA_cons_self]
        have hnone : lookupA (t.filter q) pk = none := by
          apply lookupA_not_mem
          intro hmem
          apply hnd2.1
          obtain ⟨x, hx, hxk⟩ := List.mem_map.mp hmem
          exact List.mem_map.mpr ⟨x, List.mem_of_mem_filter hx, hxk⟩
        rw [hnone]
        simp [hq]
    · by_cases hq : q (pk, pv) = true
      · rw [List.filter_cons_of_pos hq, lookupA_cons_ne hk,
          lookupA_cons_ne hk]
        exact ih hnd2.2
      · rw [List.filter_cons_of_neg hq, lookupA_cons_ne hk]
        exact ih hnd2.2

theorem lookupA_bumpNames (l : List (Int × List String)) (i : Int)
    (n : String) (i' : Int) :
    lookupA (bumpNames l i n) i'
      = if i' = i then some (addToSet ((lookupA l i').getD []) n)
        else lookupA l i' := by
  induction l with
  | nil =>
    by_cases h : i' = i
    · subst h
      simp [bumpNames, lookupA_cons_self, lookupA]
    · simp [bumpNames, lookupA, List.find?_cons, h, Ne.symm h]
  | cons q t ih =>
    rcases q with ⟨qk, qn⟩
    show lookupA (if qk = i then (qk, addToSet qn n) :: t
        else (qk, qn) :: bumpNames t i n) i' = _
    by_cases hq : qk = i
    · rw [if_pos hq]
      by_cases hk : i' = qk
      · subst hk
        rw [lookupA_cons_self, if_pos hq, lookupA_cons_self]
        rfl
      · have hkk : ¬ i' = i := fun h => hk (h.trans hq.symm)
        rw [lookupA_cons_ne (fun h => hk h.symm), if_neg hkk,
          lookupA_cons_ne (fun h => hk h.symm)]
    · rw [if_neg hq]
      by_cases hk : i' = qk
      · subst hk
        rw [lookupA_cons_self, if_neg hq, lookupA_cons_self]
      · rw [lookupA_cons_ne (fun h => hk h.symm), ih,
          lookupA_cons_ne (fun h => hk h.symm)]

theorem lookupA_groupNames_fold (apps : List (Int × String)) :
    ∀ (acc : List (Int × List String)) (i : Int),
      lookupA (apps.foldl (fun acc a => bumpNames acc a.1 a.2) acc) i
        = match lookupA acc i with
          | some ns => some ((namesRaw apps i).foldl addToSet ns)
          | none =>
            if namesRaw apps i = [] then none
            else some ((namesRaw apps i).foldl addToSet []) := by
  induction apps with
  | nil =>
    intro acc i
    cases h : lookupA acc i <;> simp [h, namesRaw]
  | cons a t ih =>
    intro acc i
    have hstep : (a :: t).foldl (fun acc a => bumpNames acc a.1 a.2) acc
        = t.foldl (fun acc a => bumpNames acc a.1 a.2)
            (bumpNames acc a.1 a.2) := rfl
    rw [hstep, ih, lookupA_bumpNames]
    by_cases hi : i = a.1
    · rw [if_pos hi]
      have hraw : namesRaw (a :: t) i = a.2 :: namesRaw t i := by
        have : (a.1 == i) = true := by
          simp [hi]
        simp [namesRaw, List.filter_cons, this]
      cases h : lookupA acc i with
      | some ns => simp [h, hraw]
      | none => simp [h, hraw]
    · rw [if_neg hi]
      have hraw : namesRaw (a :: t) i = namesRaw t i := by
        have : (a.1 == i) = false := by
          simp
          exact fun h => hi h.symm
        simp [namesRaw, List.filter_cons, this]
      cases h : lookupA acc i <;> simp [h, hraw]

theorem bumpNames_keys (l : List (Int × List String)) (i : Int) (n : String) :
    (bumpNames l i n).map Prod.fst
      = if i ∈ l.map Prod.fst then l.map Prod.fst
        else l.map Prod.fst ++ [i] := by
  induction l with
  | nil => simp [bumpNames]
  | cons q t ih =>
    rcases q with ⟨qk, qn⟩
    by_cases hq : qk = i
    · subst hq
      simp [bumpNames]
    · have hkq : ¬ i = qk := fun h => hq h.symm
      by_cases hk : i ∈ t.map Prod.fst
      · simp [bumpNames, hq, ih, hk, hkq]
      · simp [bumpNames, hq, ih, hk, hkq]

theorem groupNames_keys_nodup (apps : List (Int × String)) :
    ((apps.foldl (fun acc a => bumpNames acc a.1 a.2) []).map
        Prod.fst).Nodup := by
  suffices h : ∀ acc : List (Int × List String), (acc.map Prod.fst).Nodup →
      ((apps.foldl (fun acc a => bumpNames acc a.1 a.2) acc).map
        Prod.fst).Nodup by
    exact h [] (by simp)
  induction apps with
  | nil =>
    intro acc h
    exact h
  | cons a t ih =>
    intro acc h
    have hstep : ((a :: t).foldl (fun acc a => bumpNames acc a.1 a.2) acc)
        = t.foldl (fun acc a => bumpNames acc a.1 a.2)
            (bumpNames acc a.1 a.2) := rfl
    rw [hstep]
    apply ih
    rw [bumpNames_keys]
    split
    · exact h
    · rename_i ha
      rw [List.nodup_append]
      exact ⟨h, List.nodup_singleton a.1, by
        intro x hx hxa
        rw [List.mem_singleton] at hxa
        subst hxa
        exact ha hx⟩

theorem mem_addToSet (l : List String) (n s : String) :
    s ∈ addToSet l n ↔ s ∈ l ∨ s = n := by
  unfold addToSet
  split
  · rename_i hin
    constructor
    · exact fun h => Or.inl h
    · rintro (h | h)
      · exact h
      · rw [h]
        exact hin
  · simp

theorem mem_foldl_addToSet (names : List String) :
    ∀ (acc : List String) (s : String),
      s ∈ names.foldl addToSet acc ↔ s ∈ acc ∨ s ∈ names := by
  induction names with
  | nil =>
    intro acc s
    simp
  | cons n t ih =>
    intro acc s
    have hstep : (n :: t).foldl addToSet acc = t.foldl addToSet (addToSet acc n) := rfl
    rw [hstep, ih, mem_addToSet]
    simp
    tauto

theorem nodup_addToSet (l : List String) (n : String) (h : l.Nodup) :
    (addToSet l n).Nodup := by
  unfold addToSet
  split
  · exact h
  · rename_i hn
    rw [List.nodup_append]
    exact ⟨h, List.nodup_singleton n, by
      intro x hx hxn
      rw [List.mem_singleton] at hxn
      subst hxn
      exact hn hx⟩

theorem nodup_foldl_addToSet (names : List String) :
    ∀ acc : List String, acc.Nodup → (names.foldl addToSet acc).Nodup := by
  induction names with
  | nil =>
    intro acc h
    exact h
  | cons n t ih =>
    intro acc h
    exact ih _ (nodup_addToSet acc n h)

/-- **C7.** The duplicate analysis computes exactly the claimed
dictionaries: `duplicate_ids` maps an id to its occurrence count exactly
when that count exceeds 1; `exact_duplicates` does the same for `(id,
name)` pairs; `different_names` maps an id to the set of its distinct
names (first-occurrence order, duplicate-free, with the same members as
the raw name list) exactly when there is more than one distinct name. -/
theorem C7_duplicate_analysis (apps : List (Int × String)) (i : Int)
    (nm : String) :
    (lookupA (duplicate_ids apps) i
      = if 1 < (apps.map (fun a => a.1)).countP (fun x => decide (x = i))
        then some ((apps.map (fun a => a.1)).countP (fun x => decide (x = i)))
        else none)
    ∧ (lookupA (exact_duplicates apps) (i, nm)
      = if 1 < apps.countP (fun x => decide (x = (i, nm)))
        then some (apps.countP (fun x => decide (x = (i, nm)))) else none)
    ∧ (lookupA (different_names apps) i
      = if 1 < (dedupF (namesRaw apps i)).length
        then some (dedupF (namesRaw apps i)) else none)
    ∧ (∀ s, s ∈ dedupF (namesRaw apps i) ↔ s ∈ namesRaw apps i)
    ∧ (dedupF (namesRaw apps i)).Nodup := by
  refine ⟨?_, ?_, ?_, ?_, ?_⟩
  · rw [duplicate_ids, lookupA_filter _ _ i (counter_keys_nodup _),
      lookupA_counter]
    by_cases h0 : (apps.map (fun a => a.1)).countP (fun x => decide (x = i)) = 0
    · rw [if_pos h0]
      rw [if_neg (by omega)]
    · rw [if_neg h0]
      by_cases h1 : 1 < (apps.map (fun a => a.1)).countP (fun x => decide (x = i))
      · simp [h1]
      · simp [h1]
  · rw [exact_duplicates, lookupA_filter _ _ (i, nm) (counter_keys_nodup _),
      lookupA_counter]
    by_cases h0 : apps.countP (fun x => decide (x = (i, nm))) = 0
    · rw [if_pos h0]
      rw [if_neg (by omega)]
    · rw [if_neg h0]
      by_cases h1 : 1 < apps.countP (fun x => decide (x = (i, nm)))
      · simp [h1]
      · simp [h1]
  · rw [different_names, lookupA_filter _ _ i (groupNames_keys_nodup _),
      lookupA_groupNames_fold]
    have hnil : lookupA ([] : List (Int × List String)) i = none := rfl
    rw [hnil]
    by_cases h0 : namesRaw apps i = []
    · simp [h0, dedupF]
    · by_cases h1 : 1 < (dedupF (namesRaw apps i)).length
      · rw [dedupF] at h1
        simp [h0, h1, dedupF]
      · rw [dedupF] at h1
        simp [h0, h1, dedupF]
  · intro s
    rw [dedupF, mem_foldl_addToSet]
    simp
  · exact nodup_foldl_addToSet _ _ (List.nodup_nil)

/-! ### C10: aggregate stats are only total on a nonempty store -/

theorem maxReports_fold_some (rows : List GameRecord) :
    ∀ a : Int, ∃ m,
      rows.foldl (fun acc r =>
        match acc with
        | none => some r.report_count
        | some x => some (max x r.report_count)) (some a) = some m
      ∧ (m = a ∨ ∃ r ∈ rows, r.report_count = m)
      ∧ a ≤ m ∧ ∀ r ∈ rows, r.report_count ≤ m := by
  induction rows with
  | nil =>
    intro a
    exact ⟨a, rfl, Or.inl rfl, le_refl a, by simp⟩
  | cons r t ih =>
    intro a
    obtain ⟨m, hm, hsrc, hle, hub⟩ := ih (max a r.report_count)
    refine ⟨m, hm, ?_, ?_, ?_⟩
    · rcases hsrc with h | ⟨r', hr', he⟩
      · rcases max_choice a r.report_count with hmax | hmax
        · exact Or.inl (h.trans hmax)
        · exact Or.inr ⟨r, List.mem_cons_self r t, (h.trans hmax).symm⟩
      · exact Or.inr ⟨r', List.mem_cons_of_mem r hr', he⟩
    · exact le_trans (le_max_left _ _) hle
    · intro r' hr'
      rcases List.mem_cons.mp hr' with h' | h'
      · rw [h']
        exact le_trans (le_max_right _ _) hle
      · exact hub r' h'

theorem maxReports_spec (rows : List GameRecord) (hne : rows ≠ []) :
    ∃ m, maxReports rows = some m ∧ (∃ r ∈ rows, r.report_count = m)
      ∧ ∀ r ∈ rows, r.report_count ≤ m := by
  cases rows with
  | nil => exact absurd rfl hne
  | cons r t =>
    obtain ⟨m, hm, hsrc, hle, hub⟩ := maxReports_fold_some t r.report_count
    refine ⟨m, hm, ?_, ?_⟩
    · rcases hsrc with h | ⟨r', hr', he⟩
      · exact ⟨r, List.mem_cons_self r t, h.symm⟩
      · exact ⟨r', List.mem_cons_of_mem r hr', he⟩
    · intro r' hr'
      rcases List.mem_cons.mp hr' with h' | h'
      · rw [h']
        exact hle
      · exact hub r' h'

/-- Characterization of the SQL `MIN`/`MAX`-over-nullable-column folds,
generic in the combining operation. -/
theorem optFold_spec (fs : GameRecord → Option Int) (op : Int → Int → Int)
    (le : Int → Int → Prop)
    (hrefl : ∀ a, le a a)
    (htrans : ∀ a b c, le a b → le b c → le a c)
    (hop1 : ∀ a b, le (op a b) a) (hop2 : ∀ a b, le (op a b) b)
    (hchoice : ∀ a b, op a b = a ∨ op a b = b)
    (rows : List GameRecord) :
    ∀ acc : Option Int,
      (rows.foldl (fun a r =>
          match a, fs r with
          | none, v => v
          | some m, none => some m
          | some m, some v => some (op m v)) acc = none →
        acc = none ∧ ∀ r ∈ rows, fs r = none)
      ∧ (∀ v, rows.foldl (fun a r =>
          match a, fs r with
          | none, v => v
          | some m, none => some m
          | some m, some v => some (op m v)) acc = some v →
          (acc = some v ∨ ∃ r ∈ rows, fs r = some v)
          ∧ (∀ w, acc = some w → le v w)
          ∧ (∀ r ∈ rows, ∀ w, fs r = some w → le v w)) := by
  induction rows with
  | nil =>
    intro acc
    constructor
    · intro h
      exact ⟨h, by simp⟩
    · intro v h
      have h2 : acc = some v := h
      refine ⟨Or.inl h2, ?_, by simp⟩
      intro w hw
      rw [h2] at hw
      cases Option.some.inj hw
      exact hrefl v
  | cons r t ih =>
    intro acc
    constructor
    · intro h
      rw [List.foldl_cons] at h
      obtain ⟨hstep, ht⟩ := (ih _).1 h
      have hfacts : acc = none ∧ fs r = none := by
        rcases hacc : acc with _ | m <;> rcases hfsv : fs r with _ | u <;>
          rw [hacc, hfsv] at hstep
        · exact ⟨rfl, rfl⟩
        · simp at hstep
        · simp at hstep
        · simp at hstep
      refine ⟨hfacts.1, ?_⟩
      intro r' hr'
      rcases List.mem_cons.mp hr' with h' | h'
      · rw [h']
        exact hfacts.2
      · exact ht r' h'
    · intro v h
      rw [List.foldl_cons] at h
      obtain ⟨hsrc, hb, helem⟩ := (ih _).2 v h
      refine ⟨?_, ?_, ?_⟩
      · rcases hsrc with hs | ⟨r', hr', he⟩
        · rcases hacc : acc with _ | m <;> rcases hfsv : fs r with _ | u <;>
            rw [hacc, hfsv] at hs
          · simp at hs
          · exact Or.inr ⟨r, List.mem_cons_self r t, hfsv.trans hs⟩
          · exact Or.inl hs
          · rcases hchoice m u with hc | hc
            · refine Or.inl ?_
              have hmv : m = v := by
                rw [← hc]
                exact Option.some.inj hs
              rw [hmv]
            · refine Or.inr ⟨r, List.mem_cons_self r t, ?_⟩
              have huv : u = v := by
                rw [← hc]
                exact Option.some.inj hs
              rw [hfsv, huv]
        · exact Or.inr ⟨r', List.mem_cons_of_mem r hr', he⟩
      · intro w hw
        rcases hfsv : fs r with _ | u
        · apply hb
          rw [hw, hfsv]
        · have h1 := hb (op w u) (by rw [hw, hfsv])
          exact htrans _ _ _ h1 (hop1 w u)
      · intro r' hr' w hw
        rcases List.mem_cons.mp hr' with h' | h'
        · subst h'
          rcases hacc : acc with _ | m
          · apply hb
            rw [hacc, hw]
          · have h1 := hb (op m w) (by rw [hacc, hw])
            exact htrans _ _ _ h1 (hop2 m w)
        · exact helem r' h' w hw

theorem sum_reports_fold (rows : List GameRecord) :
    ∀ a : Int, rows.foldl (fun a r => a + r.report_count) a
      = a + (rows.map (fun r => r.report_count)).sum := by
  induction rows with
  | nil =>
    intro a
    simp
  | cons r t ih =>
    intro a
    rw [List.foldl_cons, ih, List.map_cons, List.sum_cons]
    omega

/-- **C10.** The aggregate-stats query is total exactly on nonempty
stores: for a nonempty store it returns the row count, the maximum
`report_count` (attained and an upper bound), the rounded mean of
`report_count`, and the min/max of the non-null `first_seen` values
(null only when every row's `first_seen` is null); for the empty store
`AVG` is null, `round(None, 2)` raises, and no stats result is
produced. -/
theorem C10_stats_total_on_nonempty :
    (∀ rows : List GameRecord, rows ≠ [] →
      ∃ s, get_database_stats rows = some s
        ∧ s.total_games = rows.length
        ∧ (∃ m, s.max_reports = some m ∧ (∃ r ∈ rows, r.report_count = m)
            ∧ ∀ r ∈ rows, r.report_count ≤ m)
        ∧ s.avg_reports
            = round2 (((rows.map (fun r => r.report_count)).sum : ℚ)
                / (rows.length : ℚ))
        ∧ (s.oldest_game_timestamp = none →
            ∀ r ∈ rows, r.first_seen = none)
        ∧ (∀ v, s.oldest_game_timestamp = some v →
            (∃ r ∈ rows, r.first_seen = some v)
            ∧ ∀ r ∈ rows, ∀ w, r.first_seen = some w → v ≤ w)
        ∧ (s.newest_game_timestamp = none →
            ∀ r ∈ rows, r.first_seen = none)
        ∧ (∀ v, s.newest_game_timestamp = some v →
            (∃ r ∈ rows, r.first_seen = some v)
            ∧ ∀ r ∈ rows, ∀ w, r.first_seen = some w → w ≤ v))
    ∧ get_database_stats [] = none := by
  constructor
  · intro rows hne
    have hmin := optFold_spec (fun r => r.first_seen) min (fun a b => a ≤ b)
      le_refl (fun a b c h1 h2 => le_trans h1 h2)
      (fun a b => min_le_left a b) (fun a b => min_le_right a b)
      (fun a b => min_choice a b) rows none
    have hmax := optFold_spec (fun r => r.first_seen) max (fun a b => b ≤ a)
      le_refl (fun a b c h1 h2 => le_trans h2 h1)
      (fun a b => le_max_left a b) (fun a b => le_max_right a b)
      (fun a b => max_choice a b) rows none
    cases rows with
    | nil => exact absurd rfl hne
    | cons r t =>
      refine ⟨⟨(r :: t).length, maxReports (r :: t),
        round2 (((r :: t).foldl (fun a r => a + r.report_count) 0 : ℤ)
          / ((r :: t).length : ℚ)),
        minFirstSeen (r :: t), maxFirstSeen (r :: t)⟩,
        rfl, rfl, ?_, ?_, ?_, ?_, ?_, ?_⟩
      · exact maxReports_spec (r :: t) hne
      · show round2 _ = _
        rw [sum_reports_fold]
        norm_num [Function.comp_def]
      · intro h
        exact (hmin.1 h).2
      · intro v hv
        obtain ⟨hsrc, _, helem⟩ := hmin.2 v hv
        rcases hsrc with hs | hs
        · simp at hs
        · exact ⟨hs, helem⟩
      · intro h
        exact (hmax.1 h).2
      · intro v hv
        obtain ⟨hsrc, _, helem⟩ := hmax.2 v hv
        rcases hsrc with hs | hs
        · simp at hs
        · exact ⟨hs, helem⟩
  · rfl

/-- Witness for C10 at a concrete one-row store. -/
theorem C10_stats_total_on_nonempty_witness :
    ∃ s, get_database_stats [⟨"1", "A", some 3, some 4, 2⟩] = some s
      ∧ s.total_games = [(⟨"1", "A", some 3, some 4, 2⟩ : GameRecord)].length
      ∧ (∃ m, s.max_reports = some m
          ∧ (∃ r ∈ [(⟨"1", "A", some 3, some 4, 2⟩ : GameRecord)],
              r.report_count = m)
          ∧ ∀ r ∈ [(⟨"1", "A", some 3, some 4, 2⟩ : GameRecord)],
              r.report_count ≤ m)
      ∧ s.avg_reports
          = round2 ((([(⟨"1", "A", some 3, some 4, 2⟩ : GameRecord)].map
              (fun r => r.report_count)).sum : ℚ)
              / (([(⟨"1", "A", some 3, some 4, 2⟩ : GameRecord)].length : ℚ)))
      ∧ (s.oldest_game_timestamp = none →
          ∀ r ∈ [(⟨"1", "A", some 3, some 4, 2⟩ : GameRecord)],
            r.first_seen = none)
      ∧ (∀ v, s.oldest_game_timestamp = some v →
          (∃ r ∈ [(⟨"1", "A", some 3, some 4, 2⟩ : GameRecord)],
              r.first_seen = some v)
          ∧ ∀ r ∈ [(⟨"1", "A", some 3, some 4, 2⟩ : GameRecord)],
              ∀ w, r.first_seen = some w → v ≤ w)
      ∧ (s.newest_game_timestamp = none →
          ∀ r ∈ [(⟨"1", "A", some 3, some 4, 2⟩ : GameRecord)],
            r.first_seen = none)
      ∧ (∀ v, s.newest_game_timestamp = some v →
          (∃ r ∈ [(⟨"1", "A", some 3, some 4, 2⟩ : GameRecord)],
              r.first_seen = some v)
          ∧ ∀ r ∈ [(⟨"1", "A", some 3, some 4, 2⟩ : GameRecord)],
              ∀ w, r.first_seen = some w → w ≤ v) :=
  C10_stats_total_on_nonempty.1 [⟨"1", "A", some 3, some 4, 2⟩] (by simp)

end ProtonDB
